import Mathlib

/-!
Verification development for the BITS packet decoder (`src/day/day16.rs`).

The Rust source is shallowly embedded: machine integers (`u8`, `u16`, `u64`)
become `Nat` with explicit `% 2^w` at the points where the Rust arithmetic
can wrap; fallible operations return `Option`; the mutable `BitReader`
cursor becomes explicit state passing of its `offset` (the byte buffer is
immutable and passed separately).  Loops and recursive descent are embedded
with an explicit fuel argument chosen large enough at call sites; the fuel
pattern keeps every definition computable by kernel reduction.
-/

namespace Day16

namespace bits

/-- Embedding of `BitReader::read(byte, bit_index, count)`:
`(byte >> shift) & mask` with `shift = 8 - bit_index - count` and
`mask = (1 << count) - 1` (a `u8` mask; for `count ≤ 8` the cast
`((1u16 << count) - 1) as u8` is exactly `2^count - 1`, so `& mask`
is `% 2^count`). -/
def read (byte bitIndex count : Nat) : Nat :=
  (byte >>> (8 - bitIndex - count)) % 2 ^ count

/-- Embedding of the `loop { ... }` inside `BitReader::consume`.
State change of variable: the source tracks `consumed_bits` and computes
`n_bits = count - consumed_bits` each iteration; we track `need = n_bits`
directly (the source maintains `consumed_bits ≤ count`, so the two are
interconvertible).  `result` carries the accumulator of type `T`
(`u8`/`u16`, width `w`); the source `result.shl` wraps at `2^w`, hence the
`% 2^w`.  `fuel` bounds the iteration count; the loop runs at most
`need + 1` iterations (each non-final iteration strictly decreases `need`),
so the caller passes `count + 1` and the `0` branch is never taken. -/
def consumeLoop (w : Nat) (buf : List Nat) : Nat → Nat → Nat → Nat → Option (Nat × Nat)
  | 0, _, _, _ => none
  | fuel + 1, off, need, result =>
    match buf[off / 8]? with
    | none => none
    | some byte =>
      let bitIndex := off % 8
      let remainingBits := 8 - bitIndex
      let readBits := min remainingBits need
      let result2 := result ||| read byte bitIndex readBits
      let need2 := need - readBits
      let off2 := off + readBits
      if need2 = 0 then some (result2, off2)
      else consumeLoop w buf fuel off2 need2 ((result2 <<< need2) % 2 ^ w)

/-- Embedding of `BitReader::consume::<T>(count)` for `T` of bit width `w`
(`w = 8` or `w = 16` in the program).  The Rust method takes `&mut self`
and returns `Option<T>`; we return the optional value together with the
final `offset` (`self.offset` is written only on the success path, so on
failure the returned offset is the unchanged input offset). -/
def consume (w : Nat) (buf : List Nat) (off count : Nat) : Option Nat × Nat :=
  if w < count then (none, off)
  else
    match consumeLoop w buf (count + 1) off count 0 with
    | none => (none, off)
    | some (v, off2) => (some v, off2)

end bits

namespace hex

/-- `char::to_digit(16)`: the value of a hexadecimal digit character. -/
def hexDigit? (c : Char) : Option Nat :=
  if c.val ≥ 48 ∧ c.val ≤ 57 then some (c.val.toNat - 48)
  else if c.val ≥ 97 ∧ c.val ≤ 102 then some (c.val.toNat - 87)
  else if c.val ≥ 65 ∧ c.val ≤ 70 then some (c.val.toNat - 55)
  else none

/-- `u8::from_str_radix(s, 16)` restricted to the two-character groups the
decoder produces.  Per the Rust standard library an unsigned parse accepts
an optional leading `+` followed by at least one digit; any other
non-digit character is rejected.  A two-character group can never overflow
`u8` (max is `0xFF = 255`). -/
def fromStrRadixPair (c1 c2 : Char) : Option Nat :=
  if c1 = '+' then hexDigit? c2
  else
    match hexDigit? c1, hexDigit? c2 with
    | some a, some b => some (16 * a + b)
    | _, _ => none

/-- Result of `hex::decode`.  `ok` is `Ok(bytes)`, `err` is the returned
`Err(ParseIntError)`, and `panicked` marks the out-of-bounds slice panic
`&s[i..i + 2]` that fires when `i + 2 > s.len()` (odd-length input).
The string is modelled as its character list; this is byte-exact for
ASCII input (each char is one byte, every slice boundary is a char
boundary). -/
inductive HexResult where
  | ok (bytes : List Nat)
  | err
  | panicked

/-- Embedding of `hex::decode`:
`(0..s.len()).step_by(2).map(|i| u8::from_str_radix(&s[i..i+2], 16)).collect()`.
`collect::<Result<Vec<u8>, _>>()` pulls groups left to right and
short-circuits on the first `Err`, so an earlier invalid group returns
`Err` before a trailing half-group can panic. -/
def decode : List Char → HexResult
  | [] => .ok []
  | [_] => .panicked
  | c1 :: c2 :: rest =>
    match fromStrRadixPair c1 c2 with
    | none => .err
    | some b =>
      match decode rest with
      | .ok bs => .ok (b :: bs)
      | r => r

/-- The "all adjacent two-character groups parse" predicate, computed the
same two-at-a-time way; a trailing single character is ignored here (its
effect is the panic, accounted separately). -/
def allPairsParse : List Char → Bool
  | [] => true
  | [_] => true
  | c1 :: c2 :: rest => (fromStrRadixPair c1 c2).isSome && allPairsParse rest

/-- Reference byte sequence: each adjacent pair parsed in order
(junk `0` for unparsable or half groups; only used under `allPairsParse`). -/
def bytesOf : List Char → List Nat
  | [] => []
  | [_] => []
  | c1 :: c2 :: rest => (fromStrRadixPair c1 c2).getD 0 :: bytesOf rest

/-- Pure-hex-digit pairs (the claim's "valid hex": both characters are
hexadecimal digits, no sign). -/
def allPairsHexDigits : List Char → Bool
  | [] => true
  | [_] => true
  | c1 :: c2 :: rest =>
    (hexDigit? c1).isSome && (hexDigit? c2).isSome && allPairsHexDigits rest

end hex

namespace bits

/-- Embedding of the `while let Some(group) = reader.consume::<u8>(5)` loop
of `Varint::decode`.  `acc` is the `u64` accumulator (`result` in the
source), `size` the group count.  `result.leading_zeros() < 4` on a `u64`
is exactly `2^60 ≤ result`.  `result |= (group & 0xF) as u64` is
`acc ||| group % 16`, and `result <<= 4` wraps at `2^64`.  Returns
`(value, size, final offset)` on success.  Each iteration moves the offset
from `off` to `off + 5` with `off + 5 ≤ 8 * buf.length`, so
`2 * buf.length + 2` units of fuel always suffice; when fuel runs out the
stream is already past the end and the source loop would stop too. -/
def varintAux (buf : List Nat) : Nat → Nat → Nat → Nat → Option (Nat × Nat × Nat)
  | 0, _, _, _ => none
  | fuel + 1, off, acc, size =>
    match consume 8 buf off 5 with
    | (none, _) => none
    | (some group, off2) =>
      if 2 ^ 60 ≤ acc then none
      else
        let acc2 := acc ||| group % 16
        let size2 := size + 1
        if group < 16 then some (acc2, size2, off2)
        else varintAux buf fuel off2 ((acc2 <<< 4) % 2 ^ 64) size2

/-- Embedding of `Varint::decode(reader)`, producing the `Varint(value, size)`
payload together with the reader's final offset. -/
def varintDecode (buf : List Nat) (off : Nat) : Option (Nat × Nat × Nat) :=
  varintAux buf (2 * buf.length + 2) off 0 0

/-- The seven operator variants of `PacketKind` (every one carries a
`Vec<Packet>` in the source; the payload lists live in `Packet.op`). -/
inductive OpKind where
  | sum
  | product
  | minimum
  | maximum
  | greater
  | less
  | equal

/-- `Packet { version, kind }`.  `literal v sz` is
`PacketKind::Literal(Varint(v, sz))`; `op k ps` collapses the seven
`Vec`-carrying variants of `PacketKind` into one constructor tagged by
`OpKind`. -/
inductive Packet where
  | literal (version : Nat) (value : Nat) (size : Nat)
  | op (version : Nat) (kind : OpKind) (children : List Packet)

/-- The `match type_id { PACKET_SUM => ..., _ => return None }` mapping at
the end of `decode_packet` (`type_id = 4` was already handled). -/
def mkOperator (ver tid : Nat) (ps : List Packet) (off : Nat) : Option (Packet × Nat) :=
  match tid with
  | 0 => some (.op ver .sum ps, off)
  | 1 => some (.op ver .product ps, off)
  | 2 => some (.op ver .minimum ps, off)
  | 3 => some (.op ver .maximum ps, off)
  | 5 => some (.op ver .greater ps, off)
  | 6 => some (.op ver .less ps, off)
  | 7 => some (.op ver .equal ps, off)
  | _ => none

mutual

/-- Embedding of `decode_packet(reader)`.  The `alt` argument stands for the
`unreachable!()` arm of the `length_type_id` branch: the source diverges
there, so its observable behaviour is modelled by an arbitrary result
value, and "the arm is never executed" becomes "the result does not
depend on `alt`".  Fuel bounds the recursion depth and loop lengths; a
packet is decoded exactly by every sufficiently large fuel. -/
def decodePacketA (buf : List Nat) (alt : Option (Packet × Nat)) : Nat → Nat → Option (Packet × Nat)
  | 0, _ => none
  | fuel + 1, off =>
    match consume 8 buf off 3 with
    | (none, _) => none
    | (some ver, off1) =>
      match consume 8 buf off1 3 with
      | (none, _) => none
      | (some tid, off2) =>
        if tid = 4 then
          match varintDecode buf off2 with
          | none => none
          | some (v, sz, off3) => some (.literal ver v sz, off3)
        else
          match consume 8 buf off2 1 with
          | (none, _) => none
          | (some ltid, off3) =>
            if ltid = 0 then
              match consume 16 buf off3 15 with
              | (none, _) => none
              | (some totalBits, off4) =>
                match decodeSubBitsA buf alt fuel (off4 + totalBits) off4 with
                | none => none
                | some (ps, off5) => mkOperator ver tid ps off5
            else if ltid = 1 then
              match consume 16 buf off3 11 with
              | (none, _) => none
              | (some cnt, off4) =>
                match decodeSubCountA buf alt fuel cnt off4 with
                | none => none
                | some (ps, off5) => mkOperator ver tid ps off5
            else alt
termination_by structural fuel => fuel

/-- The `length_type_id == 0` sub-loop:
`while reader.offset < end_offset { packets.push(decode_packet(reader)?) }`. -/
def decodeSubBitsA (buf : List Nat) (alt : Option (Packet × Nat)) : Nat → Nat → Nat → Option (List Packet × Nat)
  | 0, _, _ => none
  | fuel + 1, endOff, off =>
    if off < endOff then
      match decodePacketA buf alt fuel off with
      | none => none
      | some (p, off2) =>
        match decodeSubBitsA buf alt fuel endOff off2 with
        | none => none
        | some (ps, off3) => some (p :: ps, off3)
    else some ([], off)
termination_by structural fuel _ _ => fuel

/-- The `length_type_id == 1` sub-loop:
`(0..packets_count).map(|_| decode_packet(reader)).collect::<Option<Vec<_>>>()`. -/
def decodeSubCountA (buf : List Nat) (alt : Option (Packet × Nat)) : Nat → Nat → Nat → Option (List Packet × Nat)
  | 0, _, _ => none
  | fuel + 1, cnt, off =>
    match cnt with
    | 0 => some ([], off)
    | c + 1 =>
      match decodePacketA buf alt fuel off with
      | none => none
      | some (p, off2) =>
        match decodeSubCountA buf alt fuel c off2 with
        | none => none
        | some (ps, off3) => some (p :: ps, off3)
termination_by structural fuel _ _ => fuel

end

/-- `decode_packet` proper (the `unreachable!()` arm modelled as `none`;
by the C10 theorem the choice is irrelevant). -/
def decodePacket (buf : List Nat) (fuel off : Nat) : Option (Packet × Nat) :=
  decodePacketA buf none fuel off

/-- The `while let Some(packet) = decode_packet(&mut reader)` collection
loop of `bits::decode`, starting at a given offset. -/
def decodeAux (buf : List Nat) : Nat → Nat → List Packet
  | 0, _ => []
  | fuel + 1, off =>
    match decodePacket buf fuel off with
    | none => []
    | some (p, off2) => p :: decodeAux buf fuel off2

/-- Embedding of `bits::decode(bytes)`: cursor starts at bit offset 0; the
result is a plain packet list (note the Rust signature `Vec<Packet>`:
there is no error channel). -/
def decode (fuel : Nat) (buf : List Nat) : List Packet :=
  decodeAux buf fuel 0

/-- Wrapping `u64` iterator sum, `packets.iter().map(eval).sum::<u64>()`. -/
def wsum (vs : List Nat) : Nat :=
  vs.foldl (fun a b => (a + b) % 2 ^ 64) 0

/-- Wrapping `u64` iterator product. -/
def wprod (vs : List Nat) : Nat :=
  vs.foldl (fun a b => (a * b) % 2 ^ 64) 1

mutual

/-- Embedding of `Packet::eval`.  The Rust function returns `u64` and can
panic: `.min().unwrap()` / `.max().unwrap()` on an empty child list, and
the `packets[0]` / `packets[1]` indexing of the comparison kinds on a
short list.  All panics (including panics propagated out of child
evaluations) are modelled as `none`.  For `Greater`/`Less`/`Equal` only
the first two children are evaluated, exactly as in the source. -/
def eval : Packet → Option Nat
  | .literal _ v _ => some v
  | .op _ .sum ps => (evalList ps).map wsum
  | .op _ .product ps => (evalList ps).map wprod
  | .op _ .minimum ps => (evalList ps).bind List.min?
  | .op _ .maximum ps => (evalList ps).bind List.max?
  | .op _ .greater ps =>
    match ps with
    | p0 :: p1 :: _ =>
      match eval p0, eval p1 with
      | some lhs, some rhs => some (if lhs > rhs then 1 else 0)
      | _, _ => none
    | _ => none
  | .op _ .less ps =>
    match ps with
    | p0 :: p1 :: _ =>
      match eval p0, eval p1 with
      | some lhs, some rhs => some (if lhs < rhs then 1 else 0)
      | _, _ => none
    | _ => none
  | .op _ .equal ps =>
    match ps with
    | p0 :: p1 :: _ =>
      match eval p0, eval p1 with
      | some lhs, some rhs => some (if lhs = rhs then 1 else 0)
      | _, _ => none
    | _ => none

/-- `packets.iter().map(Self::eval)` collected left to right; `none` as
soon as some child evaluation panics. -/
def evalList : List Packet → Option (List Nat)
  | [] => some []
  | p :: ps =>
    match eval p, evalList ps with
    | some v, some vs => some (v :: vs)
    | _, _ => none

end

/-- `Packet::version()` (the 3-bit version field). -/
def version : Packet → Nat
  | .literal v _ _ => v
  | .op v _ _ => v

/-- `Packet::sub_packets()` flattened to a list: the child vector for the
seven operator kinds, `[]` for `Literal` (where the source returns `None`
and part 1 pushes nothing). -/
def children : Packet → List Packet
  | .literal _ _ _ => []
  | .op _ _ ps => ps

mutual

/-- Structural size of a packet tree (termination measure for the
breadth-first traversal). -/
def packSize : Packet → Nat
  | .literal _ _ _ => 1
  | .op _ _ ps => 1 + packListSize ps

def packListSize : List Packet → Nat
  | [] => 0
  | p :: ps => packSize p + packListSize ps

end

theorem packListSize_append (a b : List Packet) :
    packListSize (a ++ b) = packListSize a + packListSize b := by
  induction a with
  | nil => simp [packListSize]
  | cons p ps ih => simp [packListSize, ih]; omega

theorem packListSize_children_lt (p : Packet) :
    packListSize (children p) < packSize p := by
  cases p with
  | literal v x s => simp [children, packSize, packListSize]
  | op v k ps => simp [children, packSize]

/-- The breadth-first traversal of `solve_part1`: a `VecDeque` seeded with
the top-level packets; each step pops the front packet, records its
version, and pushes its sub-packets (if any) at the back.  Returns the
versions in visit order (the `versions` vector). -/
def bfsVersions (queue : List Packet) : List Nat :=
  match queue with
  | [] => []
  | p :: rest => version p :: bfsVersions (rest ++ children p)
termination_by packListSize queue
decreasing_by
  simp only [packListSize, packListSize_append]
  have := packListSize_children_lt p
  omega

/-- `versions.iter().sum::<u32>()`: wrapping `u32` sum of the recorded
versions. -/
def versionSumPart1 (ps : List Packet) : Nat :=
  (bfsVersions ps).foldl (fun a b => (a + b) % 2 ^ 32) 0

mutual

/-- The natural recursive version sum over one packet tree. -/
def versionSumRec : Packet → Nat
  | .literal v _ _ => v
  | .op v _ ps => v + versionSumRecList ps

def versionSumRecList : List Packet → Nat
  | [] => 0
  | p :: ps => versionSumRec p + versionSumRecList ps

end

mutual

/-- Shape condition under which `Packet::eval` cannot panic: every
`Minimum`/`Maximum` node has at least one child, every
`Greater`/`Less`/`Equal` node has at least two.  (`Sum`/`Product` are
total even on empty child lists.) -/
def wf : Packet → Bool
  | .literal _ _ _ => true
  | .op _ k ps =>
    (match k with
     | .minimum | .maximum => !ps.isEmpty
     | .greater | .less | .equal => decide (2 ≤ ps.length)
     | _ => true)
    && wfList ps

def wfList : List Packet → Bool
  | [] => true
  | p :: ps => wf p && wfList ps

end

end bits

/-! ### Specification-side definitions

These follow the specification's words (manual big-endian bit reading, the
varint group stream) rather than the source, for the claims that compare
the implementation against them. -/

namespace spec

/-- Bit `i` of the buffer, counting bits most-significant-bit-first inside
each byte: the stream's big-endian bit order. -/
def bitAt (buf : List Nat) (i : Nat) : Nat :=
  ((buf.getD (i / 8) 0) >>> (7 - i % 8)) % 2

/-- The unsigned integer formed by the `n` consecutive bits starting at
bit offset `off`, read most-significant-bit-first. -/
def bitsAt (buf : List Nat) (off n : Nat) : Nat :=
  (List.range n).foldl (fun acc j => 2 * acc + bitAt buf (off + j)) 0

/-- The 5-bit varint group value at bit offset `off` (as the reader
delivers it). -/
def groupAt (buf : List Nat) (off : Nat) : Option Nat :=
  (Day16.bits.consume 8 buf off 5).1

/-- The first `k` groups starting at `off` are all present and all have
their continuation (top) bit set. -/
def contGroups (buf : List Nat) (off k : Nat) : Prop :=
  ∀ j < k, ∃ g, groupAt buf (off + 5 * j) = some g ∧ 16 ≤ g

/-- The accumulator value the varint loop holds when it is about to fold
group `k`, starting from accumulator `acc` at group `0`: each folded
group contributes its low 4 payload bits followed by a 4-bit left shift
(exact arithmetic; the implementation matches it while no overflow has
occurred). -/
def relAcc (buf : List Nat) : Nat → Nat → Nat → Nat
  | acc, _, 0 => acc
  | acc, off, k + 1 =>
    relAcc buf ((acc + ((groupAt buf off).getD 0) % 16) * 16) (off + 5) k

/-- No overflow happened strictly before group `k`. -/
def noOverflowBefore (buf : List Nat) (acc off k : Nat) : Prop :=
  ∀ j < k, relAcc buf acc off j < 2 ^ 60

/-- Big-endian fold of the 4-bit payloads of the `k` groups starting at
`off`: `sum over j < k of payload_j * 16^(k - 1 - j)`. -/
def foldPay (buf : List Nat) : Nat → Nat → Nat
  | _, 0 => 0
  | off, k + 1 => ((groupAt buf off).getD 0) % 16 * 16 ^ k + foldPay buf (off + 5) k

/-- The specification's two varint failure situations, relative to a
starting accumulator `acc` (the decode starts from `acc = 0`): either the
stream is exhausted at some group `k` after `k` continuation groups with
no earlier overflow, or a group `k` is present after `k` continuation
groups with no earlier overflow but the accumulator about to fold it
lacks 4 leading zero bits (`2^60 ≤` it). -/
def failsSpec (buf : List Nat) (acc off : Nat) : Prop :=
  (∃ k, contGroups buf off k ∧ noOverflowBefore buf acc off k ∧
    groupAt buf (off + 5 * k) = none)
  ∨ (∃ k g, contGroups buf off k ∧ noOverflowBefore buf acc off k ∧
    groupAt buf (off + 5 * k) = some g ∧ 2 ^ 60 ≤ relAcc buf acc off k)

end spec

end Day16

/-! ## Helper lemmas about the bit reader -/

namespace Day16

namespace bits

theorem consumeLoop_some_offset (w : Nat) (buf : List Nat) :
    ∀ fuel off need res v off2,
      consumeLoop w buf fuel off need res = some (v, off2) →
      off2 = off + need ∧ off2 ≤ 8 * buf.length := by
  intro fuel
  induction fuel with
  | zero => intro off need res v off2 h; simp [consumeLoop] at h
  | succ fuel ih =>
    intro off need res v off2 h
    cases hb : buf[off / 8]? with
    | none => simp only [consumeLoop, hb] at h; exact absurd h (by simp)
    | some byte =>
      simp only [consumeLoop, hb] at h
      have hidx : off / 8 < buf.length := by
        rcases List.getElem?_eq_some.mp hb with ⟨hlt, _⟩
        exact hlt
      have hmod : off % 8 < 8 := Nat.mod_lt _ (by norm_num)
      have hoffle : off + (8 - off % 8) ≤ 8 * buf.length := by
        have hdiv := Nat.div_add_mod off 8
        omega
      have hminle : min (8 - off % 8) need ≤ need := Nat.min_le_right _ _
      have hminle2 : min (8 - off % 8) need ≤ 8 - off % 8 := Nat.min_le_left _ _
      split at h
      · rename_i heq
        have h3 := Option.some.inj h
        have h4 : off + min (8 - off % 8) need = off2 := congrArg Prod.snd h3
        constructor
        · omega
        · omega
      · rename_i hne
        rcases ih _ _ _ _ _ h with ⟨h1, h2⟩
        constructor
        · omega
        · exact h2

theorem consume_some_offset (w : Nat) (buf : List Nat) (off count v off2 : Nat)
    (h : consume w buf off count = (some v, off2)) :
    off2 = off + count ∧ off2 ≤ 8 * buf.length := by
  rw [consume] at h
  split at h
  · simp at h
  · rcases hl : consumeLoop w buf (count + 1) off count 0 with _ | ⟨v2, o2⟩
    · rw [hl] at h; simp at h
    · rw [hl] at h
      simp only [Prod.mk.injEq, Option.some.injEq] at h
      rcases h with ⟨h1, h2⟩
      subst h2
      exact consumeLoop_some_offset w buf _ _ _ _ _ _ hl

theorem consume_fail_of_past_end (buf : List Nat) (off : Nat)
    (h : 8 * buf.length ≤ off) : consume 8 buf off 5 = (none, off) := by
  rw [consume]
  have h8 : ¬ (8 < 5) := by norm_num
  rw [if_neg h8]
  have hnone : buf[off / 8]? = none := by
    apply List.getElem?_eq_none
    rw [Nat.le_div_iff_mul_le (by norm_num : 0 < 8)]
    omega
  rw [consumeLoop, hnone]

theorem consume_one_lt_two (buf : List Nat) (off v o2 : Nat)
    (h : consume 8 buf off 1 = (some v, o2)) : v < 2 := by
  rw [consume, if_neg (by norm_num : ¬ (8 < 1))] at h
  cases hb : buf[off / 8]? with
  | none =>
    simp only [consumeLoop, hb] at h
    exact absurd h (by simp)
  | some byte =>
    simp only [consumeLoop, hb] at h
    have hmod : off % 8 < 8 := Nat.mod_lt _ (by norm_num)
    have hmin : min (8 - off % 8) 1 = 1 := by omega
    rw [hmin, Nat.sub_self, if_pos rfl] at h
    simp only [Prod.mk.injEq, Option.some.injEq] at h
    have hv : v = 0 ||| read byte (off % 8) 1 := h.1.symm
    rw [hv, Nat.zero_or, read]
    exact Nat.mod_lt _ (by norm_num)

theorem decodeA_alt_irrelevant (buf : List Nat) (a1 a2 : Option (Packet × Nat)) :
    ∀ fuel,
      (∀ off, decodePacketA buf a1 fuel off = decodePacketA buf a2 fuel off)
      ∧ (∀ endOff off,
          decodeSubBitsA buf a1 fuel endOff off = decodeSubBitsA buf a2 fuel endOff off)
      ∧ (∀ cnt off,
          decodeSubCountA buf a1 fuel cnt off = decodeSubCountA buf a2 fuel cnt off) := by
  intro fuel
  induction fuel with
  | zero => exact ⟨fun _ => rfl, fun _ _ => rfl, fun _ _ => rfl⟩
  | succ fuel ih =>
    rcases ih with ⟨ihP, ihB, ihC⟩
    refine ⟨?_, ?_, ?_⟩
    · intro off
      simp only [decodePacketA]
      rcases h3 : consume 8 buf off 3 with ⟨ov, off1⟩
      cases ov with
      | none => rfl
      | some ver =>
        dsimp only
        rcases h4 : consume 8 buf off1 3 with ⟨ov2, off2⟩
        cases ov2 with
        | none => rfl
        | some tid =>
          dsimp only
          by_cases ht : tid = 4
          · simp only [if_pos ht]
          · simp only [if_neg ht]
            rcases h5 : consume 8 buf off2 1 with ⟨ov3, off3⟩
            cases ov3 with
            | none => rfl
            | some ltid =>
              dsimp only
              have hlt := consume_one_lt_two buf off2 ltid off3 h5
              interval_cases ltid
              · simp only [reduceIte]
                rcases h6 : consume 16 buf off3 15 with ⟨ov4, off4⟩
                cases ov4 with
                | none => rfl
                | some total =>
                  dsimp only
                  simp only [ihB, ihC]
              · simp only [reduceIte]
                rcases h7 : consume 16 buf off3 11 with ⟨ov5, off4⟩
                cases ov5 with
                | none => rfl
                | some cnt =>
                  dsimp only
                  simp only [ihB, ihC]
    · intro endOff off
      simp only [decodeSubBitsA]
      simp only [ihP, ihB]
    · intro cnt off
      simp only [decodeSubCountA]
      simp only [ihP, ihC]

theorem evalList_cons (p : Packet) (ps : List Packet) (vs : List Nat)
    (h : evalList (p :: ps) = some vs) :
    ∃ v vs2, eval p = some v ∧ evalList ps = some vs2 ∧ vs = v :: vs2 := by
  rw [evalList] at h
  cases he : eval p with
  | none => rw [he] at h; simp at h
  | some v =>
    rw [he] at h
    cases hl : evalList ps with
    | none => rw [hl] at h; simp at h
    | some vs2 =>
      rw [hl] at h
      simp only [Option.some.injEq] at h
      exact ⟨v, vs2, rfl, rfl, h.symm⟩

theorem packSize_pos (p : Packet) : 1 ≤ packSize p := by
  cases p <;> simp [packSize]

theorem eval_wf_strong (n : Nat) :
    (∀ p, packSize p ≤ n → wf p = true → (eval p).isSome = true)
    ∧ (∀ ps, packListSize ps ≤ n → wfList ps = true → (evalList ps).isSome = true) := by
  induction n with
  | zero =>
    refine ⟨?_, ?_⟩
    · intro p hp _
      exact absurd hp (by have := packSize_pos p; omega)
    · intro ps hps _
      cases ps with
      | nil => rfl
      | cons p ps2 =>
        exfalso
        have h1 := packSize_pos p
        simp [packListSize] at hps
        omega
  | succ n ih =>
    have hP : ∀ p, packSize p ≤ n + 1 → wf p = true → (eval p).isSome = true := by
      intro p hp hw
      cases p with
      | literal v x s => rfl
      | op v k ps =>
        have hps : packListSize ps ≤ n := by
          rw [packSize] at hp
          omega
        cases k with
        | sum =>
          simp only [wf, Bool.and_eq_true] at hw
          rcases Option.isSome_iff_exists.mp (ih.2 ps hps hw.2) with ⟨vs, hvs⟩
          rw [eval, hvs]; rfl
        | product =>
          simp only [wf, Bool.and_eq_true] at hw
          rcases Option.isSome_iff_exists.mp (ih.2 ps hps hw.2) with ⟨vs, hvs⟩
          rw [eval, hvs]; rfl
        | minimum =>
          simp only [wf, Bool.and_eq_true] at hw
          rcases Option.isSome_iff_exists.mp (ih.2 ps hps hw.2) with ⟨vs, hvs⟩
          cases ps with
          | nil => simp at hw
          | cons p0 ps2 =>
            rcases evalList_cons p0 ps2 vs hvs with ⟨a, as, _, _, hvseq⟩
            rw [eval, hvs, hvseq]
            simp [List.min?]
        | maximum =>
          simp only [wf, Bool.and_eq_true] at hw
          rcases Option.isSome_iff_exists.mp (ih.2 ps hps hw.2) with ⟨vs, hvs⟩
          cases ps with
          | nil => simp at hw
          | cons p0 ps2 =>
            rcases evalList_cons p0 ps2 vs hvs with ⟨a, as, _, _, hvseq⟩
            rw [eval, hvs, hvseq]
            simp [List.max?]
        | greater =>
          simp only [wf, Bool.and_eq_true] at hw
          rcases Option.isSome_iff_exists.mp (ih.2 ps hps hw.2) with ⟨vs, hvs⟩
          have hlen : 2 ≤ ps.length := of_decide_eq_true hw.1
          match ps, hlen, hvs with
          | p0 :: p1 :: rest, _, hvs =>
            rcases evalList_cons p0 (p1 :: rest) vs hvs with ⟨a, vs2, ha, hvs2, _⟩
            rcases evalList_cons p1 rest vs2 hvs2 with ⟨b, vs3, hb, _, _⟩
            simp [eval, ha, hb]
        | less =>
          simp only [wf, Bool.and_eq_true] at hw
          rcases Option.isSome_iff_exists.mp (ih.2 ps hps hw.2) with ⟨vs, hvs⟩
          have hlen : 2 ≤ ps.length := of_decide_eq_true hw.1
          match ps, hlen, hvs with
          | p0 :: p1 :: rest, _, hvs =>
            rcases evalList_cons p0 (p1 :: rest) vs hvs with ⟨a, vs2, ha, hvs2, _⟩
            rcases evalList_cons p1 rest vs2 hvs2 with ⟨b, vs3, hb, _, _⟩
            simp [eval, ha, hb]
        | equal =>
          simp only [wf, Bool.and_eq_true] at hw
          rcases Option.isSome_iff_exists.mp (ih.2 ps hps hw.2) with ⟨vs, hvs⟩
          have hlen : 2 ≤ ps.length := of_decide_eq_true hw.1
          match ps, hlen, hvs with
          | p0 :: p1 :: rest, _, hvs =>
            rcases evalList_cons p0 (p1 :: rest) vs hvs with ⟨a, vs2, ha, hvs2, _⟩
            rcases evalList_cons p1 rest vs2 hvs2 with ⟨b, vs3, hb, _, _⟩
            simp [eval, ha, hb]
    refine ⟨hP, ?_⟩
    intro ps
    induction ps with
    | nil => intro _ _; rfl
    | cons p ps2 ihl =>
      intro hsz hw
      rw [wfList, Bool.and_eq_true] at hw
      have hsz1 : packSize p ≤ n + 1 := by
        rw [packListSize] at hsz
        omega
      have hsz2 : packListSize ps2 ≤ n + 1 := by
        rw [packListSize] at hsz
        omega
      have h1 := hP p hsz1 hw.1
      have h2 := ihl hsz2 hw.2
      rcases Option.isSome_iff_exists.mp h1 with ⟨v, hv⟩
      rcases Option.isSome_iff_exists.mp h2 with ⟨vs, hvs⟩
      rw [evalList, hv, hvs]
      rfl

end bits

namespace hex

theorem twoStepInduction {motive : List Char → Prop} (h0 : motive [])
    (h1 : ∀ c, motive [c])
    (h2 : ∀ c1 c2 rest, motive rest → motive (c1 :: c2 :: rest)) :
    ∀ s, motive s
  | [] => h0
  | [c] => h1 c
  | c1 :: c2 :: rest => h2 c1 c2 rest (twoStepInduction h0 h1 h2 rest)

theorem decode_ok_of_even_parse :
    ∀ s : List Char, Even s.length → allPairsParse s = true →
      decode s = .ok (bytesOf s) := by
  intro s
  induction s using twoStepInduction with
  | h0 => intro _ _; rfl
  | h1 c => intro h _; rw [List.length_singleton] at h; exact absurd h (by decide)
  | h2 c1 c2 rest ih =>
    intro hev hap
    simp only [allPairsParse, Bool.and_eq_true, Option.isSome_iff_exists] at hap
    rcases hap with ⟨⟨b, hb⟩, hap2⟩
    have hev2 : Even rest.length := by
      simp only [List.length_cons] at hev ⊢
      rcases hev with ⟨m, hm⟩
      exact ⟨m - 1, by omega⟩
    rw [decode, hb, ih hev2 hap2, bytesOf, hb]
    rfl

theorem decode_err_or_panic_of_odd :
    ∀ s : List Char, ¬ Even s.length →
      decode s = .err ∨ decode s = .panicked := by
  intro s
  induction s using twoStepInduction with
  | h0 => intro h; exact absurd (by decide : Even ([] : List Char).length) h
  | h1 c => intro _; right; rfl
  | h2 c1 c2 rest ih =>
    intro hodd
    have hodd2 : ¬ Even rest.length := by
      simp only [List.length_cons] at hodd ⊢
      intro ⟨m, hm⟩
      exact hodd ⟨m + 1, by omega⟩
    cases hb : fromStrRadixPair c1 c2 with
    | none => left; rw [decode, hb]
    | some b =>
      rcases ih hodd2 with h | h
      · left; rw [decode, hb, h]
      · right; rw [decode, hb, h]

theorem decode_ok_inv :
    ∀ (s : List Char) (bs : List Nat), decode s = .ok bs →
      Even s.length ∧ allPairsParse s = true ∧ bs = bytesOf s := by
  intro s
  induction s using twoStepInduction with
  | h0 =>
    intro bs h
    simp only [decode, HexResult.ok.injEq] at h
    exact ⟨⟨0, rfl⟩, rfl, h.symm⟩
  | h1 c =>
    intro bs h
    rw [decode] at h
    cases h
  | h2 c1 c2 rest ih =>
    intro bs h
    rw [decode] at h
    cases hb : fromStrRadixPair c1 c2 with
    | none => rw [hb] at h; cases h
    | some b =>
      rw [hb] at h
      simp only at h
      cases hr : decode rest with
      | ok bs2 =>
        rw [hr] at h
        cases h
        rcases ih bs2 hr with ⟨hev, hap, hbs⟩
        refine ⟨?_, ?_, ?_⟩
        · simp only [List.length_cons]
          rcases hev with ⟨m, hm⟩
          exact ⟨m + 1, by omega⟩
        · simp [allPairsParse, hb, hap]
        · rw [bytesOf, hb, hbs]; rfl
      | err => rw [hr] at h; cases h
      | panicked => rw [hr] at h; cases h

theorem decode_err_of_even_unparsable :
    ∀ s : List Char, Even s.length → allPairsParse s = false →
      decode s = .err := by
  intro s
  induction s using twoStepInduction with
  | h0 => intro _ h; exact absurd h (by decide)
  | h1 c => intro h _; rw [List.length_singleton] at h; exact absurd h (by decide)
  | h2 c1 c2 rest ih =>
    intro hev hap
    cases hb : fromStrRadixPair c1 c2 with
    | none => rw [decode, hb]
    | some b =>
      have hev2 : Even rest.length := by
        simp only [List.length_cons] at hev ⊢
        rcases hev with ⟨m, hm⟩
        exact ⟨m - 1, by omega⟩
      have hap2 : allPairsParse rest = false := by
        simp only [allPairsParse, hb, Option.isSome_some, Bool.true_and] at hap
        exact hap
      rw [decode, hb, ih hev2 hap2]

theorem hexDigit_ne_plus (c : Char) (h : (hexDigit? c).isSome = true) :
    ¬ c = '+' := by
  intro he
  subst he
  simp [hexDigit?] at h

theorem fromStrRadixPair_isSome_of_digits (c1 c2 : Char)
    (h1 : (hexDigit? c1).isSome = true) (h2 : (hexDigit? c2).isSome = true) :
    (fromStrRadixPair c1 c2).isSome = true := by
  rw [fromStrRadixPair, if_neg (hexDigit_ne_plus c1 h1)]
  rcases Option.isSome_iff_exists.mp h1 with ⟨a, ha⟩
  rcases Option.isSome_iff_exists.mp h2 with ⟨b, hb⟩
  rw [ha, hb]
  rfl

theorem allPairsParse_of_hexDigits :
    ∀ s : List Char, allPairsHexDigits s = true → allPairsParse s = true := by
  intro s
  induction s using allPairsHexDigits.induct with
  | case1 => intro _; rfl
  | case2 c => intro _; rfl
  | case3 c1 c2 rest ih =>
    intro h
    simp only [allPairsHexDigits, Bool.and_eq_true] at h
    simp only [allPairsParse, Bool.and_eq_true]
    exact ⟨fromStrRadixPair_isSome_of_digits c1 c2 h.1.1 h.1.2, ih h.2⟩

end hex

end Day16

/-- C4 is refuted at two inputs.  Odd length: on `"A"` the slice
`&s[0..2]` panics (index out of bounds), so `hex::decode` does not return
a parse-error value.  Invalid pair accepted: `u8::from_str_radix` accepts
a leading `+`, so on `"+1"` — whose two-character group is not a pair of
hex digits — `hex::decode` returns `Ok([1])` instead of failing. -/
theorem hex_decode_odd_panics_and_plus_accepted :
    Day16.hex.decode ['A'] = .panicked
    ∧ Day16.hex.decode ['+', '1'] = .ok [1] :=
  ⟨rfl, rfl⟩

/-- C4 amended: on an even-length string all of whose adjacent pairs are
hex-digit pairs, `hex::decode` returns exactly the pairwise base-16 bytes
in order; a success is only ever produced that way (never by truncation),
with pairs accepted exactly when `u8::from_str_radix` accepts them (which
additionally allows a leading `+`); an even-length input with an
unparsable group returns the parse error; an odd-length input never
returns a value — it either propagates an earlier group's parse error or
panics on the out-of-bounds slice of the trailing half group. -/
theorem hex_decode_characterization (s : List Char) :
    (Even s.length → Day16.hex.allPairsHexDigits s = true →
      Day16.hex.decode s = .ok (Day16.hex.bytesOf s))
    ∧ (Even s.length → Day16.hex.allPairsParse s = true →
      Day16.hex.decode s = .ok (Day16.hex.bytesOf s))
    ∧ (Even s.length → Day16.hex.allPairsParse s = false →
      Day16.hex.decode s = .err)
    ∧ (¬ Even s.length →
      Day16.hex.decode s = .err ∨ Day16.hex.decode s = .panicked)
    ∧ (∀ bs, Day16.hex.decode s = .ok bs →
      Even s.length ∧ Day16.hex.allPairsParse s = true ∧ bs = Day16.hex.bytesOf s) :=
  ⟨fun hev hd => Day16.hex.decode_ok_of_even_parse s hev
      (Day16.hex.allPairsParse_of_hexDigits s hd),
    fun hev hp => Day16.hex.decode_ok_of_even_parse s hev hp,
    fun hev hp => Day16.hex.decode_err_of_even_unparsable s hev hp,
    fun hodd => Day16.hex.decode_err_or_panic_of_odd s hodd,
    fun bs h => Day16.hex.decode_ok_inv s bs h⟩

/-- Witness for the amended C4: `"D2FE28"` decodes to `[0xD2, 0xFE, 0x28]`,
`"GG"` returns the parse error, and `"A"` panics. -/
theorem hex_decode_characterization_witness :
    (Even (['D', '2', 'F', 'E', '2', '8'].length)
      ∧ Day16.hex.allPairsHexDigits ['D', '2', 'F', 'E', '2', '8'] = true
      ∧ Day16.hex.decode ['D', '2', 'F', 'E', '2', '8'] = .ok [0xD2, 0xFE, 0x28])
    ∧ (Day16.hex.allPairsParse ['G', 'G'] = false
      ∧ Day16.hex.decode ['G', 'G'] = .err)
    ∧ (¬ Even (['A'].length)
      ∧ (Day16.hex.decode ['A'] = .err ∨ Day16.hex.decode ['A'] = .panicked)) :=
  ⟨⟨by decide, by decide,
      (hex_decode_characterization ['D', '2', 'F', 'E', '2', '8']).1 (by decide) (by decide)⟩,
    ⟨by decide,
      (hex_decode_characterization ['G', 'G']).2.2.1 (by decide) (by decide)⟩,
    ⟨by decide,
      (hex_decode_characterization ['A']).2.2.2.1 (by decide)⟩⟩

/-! ## Claim theorems -/

/-- C1: `BitReader::consume(n)` is claimed to return exactly the unsigned
integer formed by the `n` consecutive bits at the cursor, MSB-first, in
particular for reads spanning three bytes.  The code violates this: each
non-final loop iteration shifts the whole accumulator left by the number
of bits still needed, so on a read spanning three bytes the first chunk
is shifted twice.  At buffer `[0x03, 0x00, 0x00]`, offset 6, count 11
(a `consume::<u16>(11)` spanning bytes 0, 1, 2), the bits are
`11000000000₂ = 1536`, but `consume` returns `3072` (first chunk `11`
shifted by 9 and then again by 1). -/
theorem consume_three_byte_span_misreads :
    Day16.bits.consume 16 [3, 0, 0] 6 11 = (some 3072, 17)
    ∧ Day16.spec.bitsAt [3, 0, 0] 6 11 = 1536
    ∧ (Day16.bits.consume 16 [3, 0, 0] 6 11).1 ≠
        some (Day16.spec.bitsAt [3, 0, 0] 6 11) := by
  refine ⟨rfl, by decide, by decide⟩

/-- C5: cursor discipline of `BitReader::consume`: a request wider than the
destination type is rejected with the offset untouched; any failure leaves
the offset unchanged; success advances the offset by exactly `count`; the
offset never decreases. -/
theorem consume_cursor_discipline (w : Nat) (buf : List Nat) (off count : Nat) :
    (w < count → Day16.bits.consume w buf off count = (none, off))
    ∧ ((Day16.bits.consume w buf off count).1 = none →
        (Day16.bits.consume w buf off count).2 = off)
    ∧ (∀ v off2, Day16.bits.consume w buf off count = (some v, off2) →
        off2 = off + count)
    ∧ off ≤ (Day16.bits.consume w buf off count).2 := by
  refine ⟨?_, ?_, ?_, ?_⟩
  · intro h; rw [Day16.bits.consume, if_pos h]
  · intro h
    by_cases hw : w < count
    · rw [Day16.bits.consume, if_pos hw]
    · rcases hl : Day16.bits.consumeLoop w buf (count + 1) off count 0 with _ | ⟨v, o2⟩
      · rw [Day16.bits.consume, if_neg hw, hl]
      · exfalso
        rw [Day16.bits.consume, if_neg hw, hl] at h
        simp at h
  · intro v off2 h
    exact (Day16.bits.consume_some_offset w buf off count v off2 h).1
  · rcases hc : Day16.bits.consume w buf off count with ⟨ov, o2⟩
    cases ov with
    | none =>
      rw [Day16.bits.consume] at hc
      split at hc
      · simp at hc; omega
      · split at hc
        · simp at hc; omega
        · simp at hc
    | some v =>
      have := (Day16.bits.consume_some_offset w buf off count v o2 hc).1
      simp
      omega

/-- Witness for C5 at concrete inputs: a 9-bit request on a `u8` read is
rejected with the cursor untouched, and a successful 3-bit read of
`[0b10101010]` yields `0b101 = 5` advancing the cursor from 0 to 3. -/
theorem consume_cursor_discipline_witness :
    (8 < 9 ∧ Day16.bits.consume 8 [170] 0 9 = (none, 0))
    ∧ (Day16.bits.consume 8 [170] 0 3 = (some 5, 3) ∧ (3 : Nat) = 0 + 3) :=
  ⟨⟨by decide, (consume_cursor_discipline 8 [170] 0 9).1 (by decide)⟩,
    ⟨rfl, (consume_cursor_discipline 8 [170] 0 3).2.2.1 5 3 rfl⟩⟩

/-- C2 is refuted: the decoder can produce an operator packet with no
children, on which `Packet::eval` hits the `min().unwrap()` panic branch.
Input bytes `[0x08, 0x00, 0x00]` encode version 0, type 2 (`Minimum`),
`length_type_id = 0`, `total_bits = 0`: `decode` returns this single
`Minimum` packet with an empty child vector, and `eval` on it fails. -/
theorem decoder_emits_empty_minimum_and_eval_fails :
    Day16.bits.decode 10 [8, 0, 0] = [.op 0 .minimum []]
    ∧ Day16.bits.eval (.op 0 .minimum []) = none :=
  ⟨rfl, rfl⟩

/-- C2 amended: `Packet::eval` cannot fail on a packet tree in which every
`Minimum`/`Maximum` node has at least one child and every
`Greater`/`Less`/`Equal` node has at least two — but the decoder does not
guarantee this shape (an operator packet with `total_bits = 0` or
`packet_count = 0` decodes to an empty child vector), so the failure
branches of `eval` are reachable from decoder output. -/
theorem eval_total_on_wf (p : Day16.bits.Packet) (h : Day16.bits.wf p = true) :
    (Day16.bits.eval p).isSome = true :=
  (Day16.bits.eval_wf_strong (Day16.bits.packSize p)).1 p (Nat.le_refl _) h

/-- Witness for the amended C2: a `Minimum` with one literal child is
well-formed and evaluates successfully. -/
theorem eval_total_on_wf_witness :
    Day16.bits.wf (.op 0 .minimum [.literal 0 5 1]) = true
    ∧ (Day16.bits.eval (.op 0 .minimum [.literal 0 5 1])).isSome = true :=
  ⟨rfl, eval_total_on_wf (.op 0 .minimum [.literal 0 5 1]) rfl⟩

/-- C3 is refuted: `bits::decode` returns a plain `Vec<Packet>` with no
error channel, so a mid-packet exhaustion is not reported as a failure
distinct from clean exhaustion.  On `[0x00]` a packet starts (the 3-bit
version read succeeds) but cannot complete (the 15-bit length read runs
out of bits), yet `decode` returns the same ordinary value `[]` that the
cleanly exhausted empty buffer produces. -/
theorem mid_packet_exhaustion_not_distinguished :
    (Day16.bits.consume 8 [0] 0 3).1 = some 0
    ∧ Day16.bits.decodePacket [0] 9 0 = none
    ∧ Day16.bits.decode 10 [0] = []
    ∧ Day16.bits.decode 10 [] = [] :=
  ⟨rfl, rfl, rfl, rfl⟩

/-- C3 amended: top-level decoding collects successive packets in order,
and stops at the first `decode_packet` failure — whether that failure is
clean exhaustion at a packet boundary or a mid-packet exhaustion — simply
returning the packets collected so far; no failure is reported and the
partial packet is discarded. -/
theorem decode_collects_until_first_failure (buf : List Nat) (fuel off : Nat)
    (p : Day16.bits.Packet) (off2 : Nat) :
    (Day16.bits.decodePacket buf fuel off = none →
      Day16.bits.decodeAux buf (fuel + 1) off = [])
    ∧ (Day16.bits.decodePacket buf fuel off = some (p, off2) →
      Day16.bits.decodeAux buf (fuel + 1) off = p :: Day16.bits.decodeAux buf fuel off2) := by
  constructor
  · intro h; rw [Day16.bits.decodeAux, h]
  · intro h; rw [Day16.bits.decodeAux, h]

/-- Witness for the amended C3 at concrete inputs: on the truncated buffer
`[0x00]` the failed first packet yields the empty collection, and on
`D2FE28` the decoded literal packet is collected in front of the rest. -/
theorem decode_collects_until_first_failure_witness :
    (Day16.bits.decodePacket [0] 9 0 = none ∧ Day16.bits.decodeAux [0] 10 0 = [])
    ∧ (Day16.bits.decodePacket [0xD2, 0xFE, 0x28] 9 0 = some (.literal 6 2021 3, 21)
      ∧ Day16.bits.decodeAux [0xD2, 0xFE, 0x28] 10 0 =
          .literal 6 2021 3 :: Day16.bits.decodeAux [0xD2, 0xFE, 0x28] 9 21) :=
  ⟨⟨rfl, (decode_collects_until_first_failure [0] 9 0 (.literal 0 0 0) 0).1 rfl⟩,
    ⟨rfl, (decode_collects_until_first_failure [0xD2, 0xFE, 0x28] 9 0
      (.literal 6 2021 3) 21).2 rfl⟩⟩

/-! ## Helper lemmas for evaluation and version sums -/

namespace Day16

namespace bits

theorem foldl_add_mod (M : Nat) :
    ∀ (vs : List Nat) (a : Nat),
      vs.foldl (fun x y => (x + y) % M) (a % M) = (a + vs.sum) % M := by
  intro vs
  induction vs with
  | nil => intro a; simp
  | cons b l ih =>
    intro a
    rw [List.foldl_cons, Nat.mod_add_mod, ih (a + b), List.sum_cons]
    ring_nf

theorem foldl_mul_mod (M : Nat) :
    ∀ (vs : List Nat) (a : Nat),
      vs.foldl (fun x y => (x * y) % M) (a % M) = (a * vs.prod) % M := by
  intro vs
  induction vs with
  | nil => intro a; simp
  | cons b l ih =>
    intro a
    rw [List.foldl_cons, Nat.mod_mul_mod, ih (a * b), List.prod_cons]
    ring_nf

theorem wsum_eq (vs : List Nat) : wsum vs = vs.sum % 2 ^ 64 := by
  have h := foldl_add_mod (2 ^ 64) vs 0
  rw [Nat.zero_mod] at h
  rw [wsum, h, Nat.zero_add]

theorem wprod_eq (vs : List Nat) : wprod vs = vs.prod % 2 ^ 64 := by
  have h := foldl_mul_mod (2 ^ 64) vs 1
  rw [Nat.one_mod_eq_one.mpr (by norm_num)] at h
  rw [wprod, h, Nat.one_mul]

theorem evalList_cons₂ (ps : List Packet) (a b : Nat) (vs2 : List Nat)
    (h : evalList ps = some (a :: b :: vs2)) :
    ∃ p0 p1 ps2, ps = p0 :: p1 :: ps2 ∧ eval p0 = some a ∧ eval p1 = some b := by
  cases ps with
  | nil =>
    rw [evalList] at h
    simp at h
  | cons p0 ps1 =>
    rcases evalList_cons p0 ps1 _ h with ⟨v, vs1, hv, hvs1, heq⟩
    cases heq
    cases ps1 with
    | nil => rw [evalList] at hvs1; simp at hvs1
    | cons p1 ps2 =>
      rcases evalList_cons p1 ps2 _ hvs1 with ⟨v2, vs3, hv2, hvs3, heq2⟩
      cases heq2
      exact ⟨p0, p1, ps2, rfl, hv, hv2⟩

theorem versionSumRecList_append (a b : List Packet) :
    versionSumRecList (a ++ b) = versionSumRecList a + versionSumRecList b := by
  induction a with
  | nil => simp [versionSumRecList]
  | cons p ps ih =>
    simp only [List.cons_append, List.append_eq, versionSumRecList, ih]
    omega

theorem versionSumRec_eq (p : Packet) :
    versionSumRec p = version p + versionSumRecList (children p) := by
  cases p with
  | literal v x s => rfl
  | op v k ps => rfl

theorem bfsVersions_sum :
    ∀ q : List Packet, (bfsVersions q).sum = versionSumRecList q := by
  intro q
  induction q using bfsVersions.induct with
  | case1 => simp [bfsVersions, versionSumRecList]
  | case2 p rest ih =>
    rw [bfsVersions]
    simp only [List.sum_cons, ih, versionSumRecList_append, List.append_eq,
      versionSumRecList, versionSumRec_eq p]
    omega

end bits

end Day16

/-- C10: the `unreachable!()` arm of the `length_type_id` branch in
`decode_packet` is never executed on any input: a 1-bit `consume` masks
its per-byte read to the requested bit count, so `length_type_id` is
always 0 or 1.  Formally, the decode result does not depend on the value
chosen for the unreachable arm. -/
theorem decode_packet_unreachable_arm_irrelevant (buf : List Nat)
    (a1 a2 : Option (Day16.bits.Packet × Nat)) (fuel off : Nat) :
    Day16.bits.decodePacketA buf a1 fuel off = Day16.bits.decodePacketA buf a2 fuel off :=
  (Day16.bits.decodeA_alt_irrelevant buf a1 a2 fuel).1 off

/-- C8: `Packet::eval` computes the definitional arithmetic fold: literals
evaluate to their value; `Sum`/`Product` to the (wrapping `u64`) sum and
product of the children's values; `Minimum`/`Maximum` to the fold of
`min`/`max` over the children's values (at least one child); the
comparison kinds to 1 or 0 according to the comparison of the first two
children's values (at least two children). -/
theorem eval_arithmetic_fold (ver : Nat) (ps : List Day16.bits.Packet)
    (vs : List Nat) (h : Day16.bits.evalList ps = some vs) :
    (∀ x sz, Day16.bits.eval (.literal ver x sz) = some x)
    ∧ Day16.bits.eval (.op ver .sum ps) = some (vs.sum % 2 ^ 64)
    ∧ Day16.bits.eval (.op ver .product ps) = some (vs.prod % 2 ^ 64)
    ∧ (∀ a as, vs = a :: as →
        Day16.bits.eval (.op ver .minimum ps) = some (as.foldl min a))
    ∧ (∀ a as, vs = a :: as →
        Day16.bits.eval (.op ver .maximum ps) = some (as.foldl max a))
    ∧ (∀ a b rest, vs = a :: b :: rest →
        Day16.bits.eval (.op ver .greater ps) = some (if a > b then 1 else 0))
    ∧ (∀ a b rest, vs = a :: b :: rest →
        Day16.bits.eval (.op ver .less ps) = some (if a < b then 1 else 0))
    ∧ (∀ a b rest, vs = a :: b :: rest →
        Day16.bits.eval (.op ver .equal ps) = some (if a = b then 1 else 0)) := by
  refine ⟨fun x sz => rfl, ?_, ?_, ?_, ?_, ?_, ?_, ?_⟩
  · rw [Day16.bits.eval, h, Option.map_some', Day16.bits.wsum_eq]
  · rw [Day16.bits.eval, h, Option.map_some', Day16.bits.wprod_eq]
  · intro a as hvs
    rw [Day16.bits.eval, h, hvs, Option.some_bind]
    rfl
  · intro a as hvs
    rw [Day16.bits.eval, h, hvs, Option.some_bind]
    rfl
  · intro a b rest hvs
    rw [hvs] at h
    rcases Day16.bits.evalList_cons₂ ps a b rest h with ⟨p0, p1, ps2, hps, ha, hb⟩
    rw [hps, Day16.bits.eval, ha, hb]
  · intro a b rest hvs
    rw [hvs] at h
    rcases Day16.bits.evalList_cons₂ ps a b rest h with ⟨p0, p1, ps2, hps, ha, hb⟩
    rw [hps, Day16.bits.eval, ha, hb]
  · intro a b rest hvs
    rw [hvs] at h
    rcases Day16.bits.evalList_cons₂ ps a b rest h with ⟨p0, p1, ps2, hps, ha, hb⟩
    rw [hps, Day16.bits.eval, ha, hb]

/-- Witness for C8 on the two-literal child list `[7, 3]`: sum 10,
product 21, minimum 3, maximum 7, greater 1, less 0, equal 0. -/
theorem eval_arithmetic_fold_witness :
    Day16.bits.evalList [.literal 0 7 1, .literal 0 3 1] = some [7, 3]
    ∧ Day16.bits.eval (.op 0 .sum [.literal 0 7 1, .literal 0 3 1]) = some 10
    ∧ Day16.bits.eval (.op 0 .product [.literal 0 7 1, .literal 0 3 1]) = some 21
    ∧ Day16.bits.eval (.op 0 .minimum [.literal 0 7 1, .literal 0 3 1]) = some 3
    ∧ Day16.bits.eval (.op 0 .greater [.literal 0 7 1, .literal 0 3 1]) = some 1 := by
  have h := eval_arithmetic_fold 0 [.literal 0 7 1, .literal 0 3 1] [7, 3] rfl
  exact ⟨rfl, h.2.1, h.2.2.1, h.2.2.2.1 7 [3] rfl, h.2.2.2.2.2.1 7 3 [] rfl⟩

/-- C9: the version-sum query of part 1 (breadth-first traversal with a
queue, then a wrapping `u32` sum of the visited versions) equals the
natural recursive sum of every `version` field over all top-level packets
and all nested sub-packets (taken mod `2^32`, the width of the summing
integer); in particular the traversal order does not affect the total. -/
theorem version_sum_bfs_eq_recursive (ps : List Day16.bits.Packet) :
    Day16.bits.versionSumPart1 ps = Day16.bits.versionSumRecList ps % 2 ^ 32 := by
  have h := Day16.bits.foldl_add_mod (2 ^ 32) (Day16.bits.bfsVersions ps) 0
  rw [Nat.zero_mod] at h
  rw [Day16.bits.versionSumPart1, h, Nat.zero_add, Day16.bits.bfsVersions_sum]

/-! ## Helper lemmas for the varint claims -/

namespace Day16

theorem lor_eq_add_of_mod (a b : Nat) (ha : a % 16 = 0) (hb : b < 16) :
    a ||| b = a + b := by
  obtain ⟨q, hq⟩ : ∃ q, a = 2 ^ 4 * q := ⟨a / 16, by omega⟩
  subst hq
  exact (Nat.mul_add_lt_is_or (by omega) q).symm

theorem relAcc_succ (buf : List Nat) (acc off k g : Nat)
    (hg : spec.groupAt buf off = some g) :
    spec.relAcc buf acc off (k + 1) =
      spec.relAcc buf ((acc + g % 16) * 16) (off + 5) k := by
  rw [spec.relAcc, hg]
  rfl

theorem contGroups_zero (buf : List Nat) (off : Nat) : spec.contGroups buf off 0 :=
  fun j hj => absurd hj (by omega)

theorem noOverflowBefore_zero (buf : List Nat) (acc off : Nat) :
    spec.noOverflowBefore buf acc off 0 :=
  fun j hj => absurd hj (by omega)

theorem contGroups_succ (buf : List Nat) (off k g : Nat)
    (hg : spec.groupAt buf off = some g) :
    spec.contGroups buf off (k + 1) ↔ 16 ≤ g ∧ spec.contGroups buf (off + 5) k := by
  constructor
  · intro h
    constructor
    · rcases h 0 (by omega) with ⟨g0, hg0, h16⟩
      rw [Nat.mul_zero, Nat.add_zero, hg] at hg0
      cases hg0
      exact h16
    · intro j hj
      rcases h (j + 1) (by omega) with ⟨g1, hg1, h16⟩
      refine ⟨g1, ?_, h16⟩
      rw [show off + 5 * (j + 1) = off + 5 + 5 * j by ring] at hg1
      exact hg1
  · intro ⟨h16, h⟩ j hj
    cases j with
    | zero =>
      refine ⟨g, ?_, h16⟩
      rw [Nat.mul_zero, Nat.add_zero, hg]
    | succ i =>
      rcases h i (by omega) with ⟨g1, hg1, hg16⟩
      refine ⟨g1, ?_, hg16⟩
      rw [show off + 5 * (i + 1) = off + 5 + 5 * i by ring]
      exact hg1

theorem noOverflowBefore_succ (buf : List Nat) (acc off k g : Nat)
    (hg : spec.groupAt buf off = some g) :
    spec.noOverflowBefore buf acc off (k + 1) ↔
      acc < 2 ^ 60 ∧ spec.noOverflowBefore buf ((acc + g % 16) * 16) (off + 5) k := by
  constructor
  · intro h
    constructor
    · exact h 0 (by omega)
    · intro j hj
      have := h (j + 1) (by omega)
      rw [relAcc_succ buf acc off j g hg] at this
      exact this
  · intro ⟨h0, h⟩ j hj
    cases j with
    | zero => exact h0
    | succ i =>
      rw [relAcc_succ buf acc off i g hg]
      exact h i (by omega)

theorem failsSpec_shift (buf : List Nat) (acc off g : Nat)
    (hg : spec.groupAt buf off = some g) (h16g : 16 ≤ g) (hlt : acc < 2 ^ 60) :
    spec.failsSpec buf ((acc + g % 16) * 16) (off + 5) ↔
      spec.failsSpec buf acc off := by
  constructor
  · rintro (⟨k, hcg, hno, hnone⟩ | ⟨k, g1, hcg, hno, hsome, hov⟩)
    · left
      refine ⟨k + 1, (contGroups_succ buf off k g hg).mpr ⟨h16g, hcg⟩,
        (noOverflowBefore_succ buf acc off k g hg).mpr ⟨hlt, hno⟩, ?_⟩
      rw [show off + 5 * (k + 1) = off + 5 + 5 * k by ring]
      exact hnone
    · right
      refine ⟨k + 1, g1, (contGroups_succ buf off k g hg).mpr ⟨h16g, hcg⟩,
        (noOverflowBefore_succ buf acc off k g hg).mpr ⟨hlt, hno⟩, ?_, ?_⟩
      · rw [show off + 5 * (k + 1) = off + 5 + 5 * k by ring]
        exact hsome
      · rw [relAcc_succ buf acc off k g hg]
        exact hov
  · rintro (⟨k, hcg, hno, hnone⟩ | ⟨k, g1, hcg, hno, hsome, hov⟩)
    · cases k with
      | zero =>
        rw [Nat.mul_zero, Nat.add_zero, hg] at hnone
        cases hnone
      | succ j =>
        left
        refine ⟨j, ((contGroups_succ buf off j g hg).mp hcg).2,
          ((noOverflowBefore_succ buf acc off j g hg).mp hno).2, ?_⟩
        rw [show off + 5 + 5 * j = off + 5 * (j + 1) by ring]
        exact hnone
    · cases k with
      | zero =>
        rw [spec.relAcc] at hov
        exact absurd hov (by omega)
      | succ j =>
        right
        refine ⟨j, g1, ((contGroups_succ buf off j g hg).mp hcg).2,
          ((noOverflowBefore_succ buf acc off j g hg).mp hno).2, ?_, ?_⟩
        · rw [show off + 5 + 5 * j = off + 5 * (j + 1) by ring]
          exact hsome
        · rw [← relAcc_succ buf acc off j g hg]
          exact hov

end Day16

namespace Day16

theorem varintAux_none_iff (buf : List Nat) :
    ∀ fuel off acc size, acc % 16 = 0 → 8 * buf.length + 5 ≤ 5 * fuel + off →
      (bits.varintAux buf fuel off acc size = none ↔ spec.failsSpec buf acc off) := by
  intro fuel
  induction fuel with
  | zero =>
    intro off acc size h16 hinv
    constructor
    · intro _
      left
      refine ⟨0, contGroups_zero buf off, noOverflowBefore_zero buf acc off, ?_⟩
      rw [Nat.mul_zero, Nat.add_zero, spec.groupAt,
        bits.consume_fail_of_past_end buf off (by omega)]
    · intro _
      rfl
  | succ fuel ih =>
    intro off acc size h16 hinv
    rcases hg : bits.consume 8 buf off 5 with ⟨og, off2⟩
    cases og with
    | none =>
      simp only [bits.varintAux, hg]
      constructor
      · intro _
        left
        refine ⟨0, contGroups_zero buf off, noOverflowBefore_zero buf acc off, ?_⟩
        rw [Nat.mul_zero, Nat.add_zero, spec.groupAt, hg]
      · intro _
        trivial
    | some g =>
      have hgAt : spec.groupAt buf off = some g := by rw [spec.groupAt, hg]
      rcases bits.consume_some_offset 8 buf off 5 g off2 hg with ⟨hoff2, hle2⟩
      have hpay : g % 16 < 16 := Nat.mod_lt _ (by norm_num)
      simp only [bits.varintAux, hg]
      by_cases hov : 2 ^ 60 ≤ acc
      · rw [if_pos hov]
        constructor
        · intro _
          right
          exact ⟨0, g, contGroups_zero buf off, noOverflowBefore_zero buf acc off,
            by rw [Nat.mul_zero, Nat.add_zero, hgAt], hov⟩
        · intro _
          trivial
      · rw [if_neg hov]
        have hlt : acc < 2 ^ 60 := by omega
        by_cases hgl : g < 16
        · rw [if_pos hgl]
          constructor
          · intro h
            exact absurd h (by simp)
          · rintro (⟨k, hcg, hno, hnone⟩ | ⟨k, g1, hcg, hno, hsome, hov2⟩)
            · exfalso
              cases k with
              | zero =>
                rw [Nat.mul_zero, Nat.add_zero, hgAt] at hnone
                cases hnone
              | succ j =>
                have := ((contGroups_succ buf off j g hgAt).mp hcg).1
                omega
            · exfalso
              cases k with
              | zero =>
                rw [spec.relAcc] at hov2
                omega
              | succ j =>
                have := ((contGroups_succ buf off j g hgAt).mp hcg).1
                omega
        · rw [if_neg hgl]
          have h16g : 16 ≤ g := by omega
          have hacc2 : acc ||| g % 16 = acc + g % 16 :=
            lor_eq_add_of_mod acc (g % 16) h16 hpay
          have hsum : acc + g % 16 < 2 ^ 60 := by omega
          have hshl : ((acc + g % 16) <<< 4) % 2 ^ 64 = (acc + g % 16) * 16 := by
            rw [Nat.shiftLeft_eq]
            exact Nat.mod_eq_of_lt (by norm_num; omega)
          rw [hacc2, hshl]
          have h16b : ((acc + g % 16) * 16) % 16 = 0 := Nat.mul_mod_left _ _
          have hinv2 : 8 * buf.length + 5 ≤ 5 * fuel + off2 := by omega
          rw [ih off2 ((acc + g % 16) * 16) (size + 1) h16b hinv2, hoff2]
          exact failsSpec_shift buf acc off g hgAt h16g hlt

end Day16

/-- C6: `Varint::decode` yields no value exactly in the two specified
failure situations: the 5-bit group stream is exhausted before a group
with clear continuation bit appears, or a group is reached whose folding
is preceded by an accumulator with fewer than 4 leading zero bits
(`2^60 ≤` accumulator), each situation taken at the first failing group
(all earlier groups present with continuation bit set and no earlier
overflow). -/
theorem varint_decode_none_iff (buf : List Nat) (off : Nat) :
    Day16.bits.varintDecode buf off = none ↔ Day16.spec.failsSpec buf 0 off := by
  rw [Day16.bits.varintDecode]
  exact Day16.varintAux_none_iff buf (2 * buf.length + 2) off 0 0 (by norm_num)
    (by omega)

namespace Day16

theorem varintAux_some (buf : List Nat) :
    ∀ fuel off acc size v sz off2, acc % 16 = 0 →
      bits.varintAux buf fuel off acc size = some (v, sz, off2) →
      ∃ n, sz = size + (n + 1) ∧ off2 = off + 5 * (n + 1) ∧
        v = spec.relAcc buf acc off n +
          (spec.groupAt buf (off + 5 * n)).getD 0 % 16 := by
  intro fuel
  induction fuel with
  | zero =>
    intro off acc size v sz off2 h16 h
    exact absurd h (by simp [bits.varintAux])
  | succ fuel ih =>
    intro off acc size v sz off2 h16 h
    rcases hg : bits.consume 8 buf off 5 with ⟨og, off2x⟩
    cases og with
    | none =>
      simp only [bits.varintAux, hg] at h
      cases h
    | some g =>
      have hgAt : spec.groupAt buf off = some g := by rw [spec.groupAt, hg]
      rcases bits.consume_some_offset 8 buf off 5 g off2x hg with ⟨hoff2, hle2⟩
      have hpay : g % 16 < 16 := Nat.mod_lt _ (by norm_num)
      simp only [bits.varintAux, hg] at h
      by_cases hov : 2 ^ 60 ≤ acc
      · rw [if_pos hov] at h
        cases h
      · rw [if_neg hov] at h
        have hlt : acc < 2 ^ 60 := by omega
        have hacc2 : acc ||| g % 16 = acc + g % 16 :=
          lor_eq_add_of_mod acc (g % 16) h16 hpay
        by_cases hgl : g < 16
        · rw [if_pos hgl] at h
          simp only [Option.some.injEq, Prod.mk.injEq] at h
          rcases h with ⟨hv, hsz, hoff⟩
          refine ⟨0, by omega, by omega, ?_⟩
          rw [← hv, hacc2, spec.relAcc, Nat.mul_zero, Nat.add_zero, hgAt]
          rfl
        · rw [if_neg hgl] at h
          have h16g : 16 ≤ g := by omega
          have hsum : acc + g % 16 < 2 ^ 60 := by omega
          have hshl : ((acc + g % 16) <<< 4) % 2 ^ 64 = (acc + g % 16) * 16 := by
            rw [Nat.shiftLeft_eq]
            exact Nat.mod_eq_of_lt (by norm_num; omega)
          rw [hacc2, hshl] at h
          have h16b : ((acc + g % 16) * 16) % 16 = 0 := Nat.mul_mod_left _ _
          rcases ih off2x ((acc + g % 16) * 16) (size + 1) v sz off2 h16b h with
            ⟨n, hsz, hoff, hv⟩
          refine ⟨n + 1, by omega, by omega, ?_⟩
          rw [relAcc_succ buf acc off n g hgAt, hv, hoff2]
          rw [show off + 5 * (n + 1) = off + 5 + 5 * n by ring]

theorem relAcc_foldPay (buf : List Nat) :
    ∀ k acc off, spec.relAcc buf acc off k =
      16 ^ k * acc + 16 * spec.foldPay buf off k := by
  intro k
  induction k with
  | zero =>
    intro acc off
    rw [spec.relAcc, spec.foldPay]
    ring
  | succ k ih =>
    intro acc off
    rw [spec.relAcc, ih, spec.foldPay]
    ring

theorem foldPay_succ_top (buf : List Nat) :
    ∀ n off, 16 * spec.foldPay buf off n +
        (spec.groupAt buf (off + 5 * n)).getD 0 % 16 =
      spec.foldPay buf off (n + 1) := by
  intro n
  induction n with
  | zero =>
    intro off
    rw [spec.foldPay, spec.foldPay, spec.foldPay, Nat.mul_zero, Nat.add_zero]
    ring
  | succ n ih =>
    intro off
    conv_lhs => rw [spec.foldPay]
    conv_rhs => rw [spec.foldPay]
    rw [← ih (off + 5), show off + 5 * (n + 1) = off + 5 + 5 * n by ring]
    ring

end Day16

/-- C7: whenever `Varint::decode` returns `Varint(v, groups)`, the value
`v` is exactly the big-endian fold of the 4-bit payloads of the `groups`
groups consumed (`sum over j < groups of payload_j * 16^(groups-1-j)`),
the cursor advanced by exactly `5 * groups` bits, and at least one group
was consumed: on the success path no high-order bit is ever shifted out
of the 64-bit accumulator. -/
theorem varint_decode_value (buf : List Nat) (off v sz off2 : Nat)
    (h : Day16.bits.varintDecode buf off = some (v, sz, off2)) :
    v = Day16.spec.foldPay buf off sz ∧ off2 = off + 5 * sz ∧ 1 ≤ sz := by
  rw [Day16.bits.varintDecode] at h
  rcases Day16.varintAux_some buf (2 * buf.length + 2) off 0 0 v sz off2
    (by norm_num) h with ⟨n, hsz, hoff, hv⟩
  have hsz2 : sz = n + 1 := by omega
  subst hsz2
  refine ⟨?_, hoff, by omega⟩
  rw [hv, Day16.relAcc_foldPay buf n 0 off, Nat.mul_zero, Nat.zero_add,
    Day16.foldPay_succ_top buf n off]

/-- Witness for C7 on the repository's own regression case: the buffer
`[0b10111111, 0b10001010]` decodes to `Varint(2021, 3)` with the cursor
at bit 15, and `2021` is the fold of the three payloads `7, 14, 5`. -/
theorem varint_decode_value_witness :
    Day16.bits.varintDecode [191, 138] 0 = some (2021, 3, 15)
    ∧ 2021 = Day16.spec.foldPay [191, 138] 0 3
    ∧ (15 : Nat) = 0 + 5 * 3 ∧ 1 ≤ 3 := by
  have h := varint_decode_value [191, 138] 0 2021 3 15 rfl
  exact ⟨rfl, h.1, h.2.1, h.2.2⟩
